import Mathlib

/-!
Shallow embedding of `src/distinct_14/src/distinct_14_chars.rs`.

The Rust file offers six strategies that find, in a byte slice, the first
position `pos` such that the 14-byte window at offsets `pos-14 .. pos-1` has
14 pairwise-distinct values.  Bytes are modelled as `Nat`; a byte slice is a
`List Nat`.  The five strategies that end in `.unwrap()` are modelled as
functions into `Option Nat`, where `none` models the panic of `unwrap` on a
missing value; `david_a_perez_solution` returns a plain `usize` (here `Nat`),
with `0` produced when its loop runs out of windows.
-/

/-- The list of all length-14 windows of `i`, in order of their start offset,
modelling Rust's `i.windows(14)` (empty when `i.length < 14`). -/
def win (i : List Nat) (k : Nat) : List Nat := (i.drop k).take 14

def windowsList (i : List Nat) : List (List Nat) :=
  (List.range (i.length + 1 - 14)).map (win i)

/-- `Iterator::position` specialised to lists: index of the first element
satisfying `p`, or `none`. -/
def findFirstIdx {α : Type} (p : α → Bool) : List α → Option Nat
  | [] => none
  | x :: l => if p x then some 0 else (findFirstIdx p l).map (· + 1)

/-- The window test of `simple_solution`:
`w.iter().collect::<HashSet<_>>().len() == 14`.  The number of distinct
elements of `w` is `w.dedup.length`. -/
def simpleCheck (w : List Nat) : Bool := w.dedup.length == 14

def simple_solution (i : List Nat) : Option Nat :=
  (findFirstIdx simpleCheck (windowsList i)).map (· + 14)

/-- The window test of `faster_solution`: insert elements one at a time into a
fresh hash set, aborting with `false` as soon as an insertion finds the
element already present. -/
def fasterGo : List Nat → List Nat → Bool
  | [], _ => true
  | x :: rest, seen => if x ∈ seen then false else fasterGo rest (x :: seen)

def faster_solution (i : List Nat) : Option Nat :=
  (findFirstIdx (fun w => fasterGo w []) (windowsList i)).map (· + 14)

/-- The window test of `faster_with_vec_solution`: like `fasterGo` but the
seen-set is a vector grown by `push` (append at the end). -/
def vecGo : List Nat → List Nat → Bool
  | [], _ => true
  | x :: rest, seen => if x ∈ seen then false else vecGo rest (seen ++ [x])

def faster_with_vec_solution (i : List Nat) : Option Nat :=
  (findFirstIdx (fun w => vecGo w []) (windowsList i)).map (· + 14)

/-- The window test of `faster_with_array_solution`: a fixed array
`[0u8; 14]` filled up to `index`; each new element is compared with the first
`index` slots. -/
def arrGo : List Nat → List Nat → Nat → Bool
  | [], _, _ => true
  | x :: rest, arr, index =>
    if x ∈ arr.take index then false
    else arrGo rest (arr.set index x) (index + 1)

def faster_with_array_solution (i : List Nat) : Option Nat :=
  (findFirstIdx (fun w => arrGo w (List.replicate 14 0) 0) (windowsList i)).map (· + 14)

/-- One XOR toggle of the Benny filter: `filter ^= 1 << (c % 32)`. -/
def maskToggle (f c : Nat) : Nat := f ^^^ (1 <<< (c % 32))

/-- The value of a Benny filter built by XOR-toggling every byte of `l`
starting from `0`. -/
def parityMask (l : List Nat) : Nat := l.foldl maskToggle 0

/-- `u32::count_ones`, on filter values (which always fit in 32 bits). -/
def popcount32 (n : Nat) : Nat := (List.range 32).countP (fun b => n.testBit b)

/-- The window loop of `benny_solution`: at each window the carried filter is
toggled with the window's last byte, tested for `count_ones == 14`, then
toggled with the window's first byte before moving on. -/
def bennyGo (filter : Nat) : List Nat → Option Nat
  | [] => none
  | c :: t =>
    if 14 ≤ (c :: t).length then
      let f1 := filter ^^^ (1 <<< ((c :: t).getD 13 0 % 32))
      if popcount32 f1 = 14 then some 0
      else (bennyGo (f1 ^^^ (1 <<< (c % 32))) t).map (· + 1)
    else none

def benny_solution (i : List Nat) : Option Nat :=
  (bennyGo (parityMask (i.take 13)) i).map (· + 14)

/-- The stateful `rposition` closure of `david_a_perez_solution`, applied to
the REVERSED window: `res = state & (1 << bit) != 0; state |= 1 << bit`.
When the head of the reversed remainder hits an already-set bit, its index in
the original (forward) window is the length of the remaining reversed tail. -/
def rposDupAux : List Nat → Nat → Option Nat
  | [], _ => none
  | b :: rest, state =>
    if state &&& (1 <<< (b % 32)) ≠ 0 then some rest.length
    else rposDupAux rest (state ||| (1 <<< (b % 32)))

/-- The `while let` loop of `david_a_perez_solution`, with explicit fuel.
Each iteration either returns or advances `idx` by at least one, and it only
continues while `idx + 14 ≤ input.length`, so `input.length + 1` fuel always
suffices; the fuel-exhausted branch is unreachable from
`david_a_perez_solution`. -/
def davidGo (input : List Nat) : Nat → Nat → Nat
  | 0, _ => 0
  | fuel + 1, idx =>
    if idx + 14 ≤ input.length then
      match rposDupAux ((win input idx).reverse) 0 with
      | some pos => davidGo input fuel (idx + pos + 1)
      | none => idx + 14
    else 0

def david_a_perez_solution (input : List Nat) : Nat :=
  davidGo input (input.length + 1) 0

/-- The mod-32 bit indices of the bytes of `l`, in order. -/
def bitsOf (l : List Nat) : List Nat := l.map (· % 32)

/-- Presence mask built by OR-ing the bits of `l`, as `rposDupAux` does. -/
def orMask (l : List Nat) : Nat := l.foldl (fun s c => s ||| (1 <<< (c % 32))) 0

/-- Helper Boolean form of window distinctness at the value level. -/
def nodupCheck (w : List Nat) : Bool := decide w.Nodup

/-- Helper Boolean form of window distinctness at the mod-32 bit level,
which is what the two bitmask strategies actually test. -/
def bitsCheck (w : List Nat) : Bool := decide (bitsOf w).Nodup

/-- Sample input `mjqjpqmgbljsphdztnvjfqwrcgsmlb` from the repository tests. -/
def sampleOne : List Nat := "mjqjpqmgbljsphdztnvjfqwrcgsmlb".data.map Char.toNat

/-- Sample input `bvwbjplbgvbhsrlpgdmjqwftvncz` from the repository tests. -/
def sampleTwo : List Nat := "bvwbjplbgvbhsrlpgdmjqwftvncz".data.map Char.toNat

/-- Sample input `nznrnfrfntjfmvfwmzdfjlvtqnbhcprsg` from the repository tests. -/
def sampleThree : List Nat := "nznrnfrfntjfmvfwmzdfjlvtqnbhcprsg".data.map Char.toNat

/-- Distinct-value input of exactly 14 bytes on which the mod-32 reduction of
the two bitmask strategies collides (1 and 33 share bit 1). -/
def cexFourteen : List Nat := [1, 33, 2, 3, 4, 5, 6, 7, 8, 9, 10, 11, 12, 13]

/-- The previous input extended by one byte, so that the second window is
bit-distinct while the (distinct) first window is not. -/
def cexFifteen : List Nat := [1, 33, 2, 3, 4, 5, 6, 7, 8, 9, 10, 11, 12, 13, 14]

/-- The 14 lowercase letters `a`..`n`, pairwise distinct. -/
def lettersFourteen : List Nat :=
  [97, 98, 99, 100, 101, 102, 103, 104, 105, 106, 107, 108, 109, 110]

theorem findFirstIdx_none_iff {α : Type} (p : α → Bool) (l : List α) :
    findFirstIdx p l = none ↔ ∀ x ∈ l, p x = false := by
  induction l with
  | nil => simp [findFirstIdx]
  | cons x l ih =>
    by_cases h : p x
    · simp [findFirstIdx, h]
    · simp [findFirstIdx, h, ih, Bool.not_eq_true] at *

theorem findFirstIdx_eq_some {α : Type} (p : α → Bool) (d : α) (l : List α) :
    ∀ n, findFirstIdx p l = some n →
      n < l.length ∧ p (l.getD n d) = true ∧ ∀ m, m < n → p (l.getD m d) = false := by
  induction l with
  | nil => intro n h; simp [findFirstIdx] at h
  | cons x l ih =>
    intro n h
    by_cases hx : p x
    · simp [findFirstIdx, hx] at h
      subst h
      simp [hx]
    · simp [findFirstIdx, hx] at h
      obtain ⟨a, ha, rfl⟩ := h
      obtain ⟨h1, h2, h3⟩ := ih a ha
      refine ⟨by simpa using h1, by simpa using h2, ?_⟩
      intro m hm
      match m with
      | 0 => simpa using Bool.not_eq_true _ |>.mp hx
      | m + 1 => simpa using h3 m (by omega)

theorem findFirstIdx_eq_some_of {α : Type} (p : α → Bool) (d : α) (l : List α) :
    ∀ n, n < l.length → p (l.getD n d) = true → (∀ m, m < n → p (l.getD m d) = false) →
      findFirstIdx p l = some n := by
  induction l with
  | nil => intro n h; simp at h
  | cons x l ih =>
    intro n hn hp hmin
    match n with
    | 0 =>
      simp only [List.getD_cons_zero] at hp
      simp [findFirstIdx, hp]
    | n + 1 =>
      have hx : p x = false := by simpa using hmin 0 (by omega)
      simp only [List.getD_cons_succ] at hp
      have := ih n (by simpa using hn) hp (fun m hm => by simpa using hmin (m + 1) (by omega))
      simp [findFirstIdx, hx, this]

theorem findFirstIdx_congr {α : Type} {p q : α → Bool} {l : List α}
    (h : ∀ x ∈ l, p x = q x) : findFirstIdx p l = findFirstIdx q l := by
  induction l with
  | nil => rfl
  | cons x l ih =>
    have hx := h x (List.mem_cons_self x l)
    simp only [findFirstIdx, hx, ih (fun y hy => h y (List.mem_cons_of_mem x hy))]

theorem win_length {i : List Nat} {k : Nat} (h : k + 14 ≤ i.length) :
    (win i k).length = 14 := by
  simp only [win, List.length_take, List.length_drop]
  omega

theorem win_subset (i : List Nat) (k : Nat) : win i k ⊆ i :=
  ((List.take_sublist _ _).trans (List.drop_sublist _ _)).subset

theorem windowsList_length (i : List Nat) :
    (windowsList i).length = i.length + 1 - 14 := by
  simp [windowsList]

theorem windowsList_getD {i : List Nat} {k : Nat} (h : k < i.length + 1 - 14) :
    (windowsList i).getD k [] = win i k := by
  have h' : k < i.length - 13 := by omega
  simp [windowsList, List.getD_eq_getElem?_getD, List.getElem?_map,
    List.getElem?_range h']

theorem mem_windowsList {i : List Nat} {w : List Nat} :
    w ∈ windowsList i ↔ ∃ k, k + 14 ≤ i.length ∧ w = win i k := by
  simp only [windowsList, List.mem_map, List.mem_range]
  constructor
  · rintro ⟨k, hk, rfl⟩
    exact ⟨k, by omega, rfl⟩
  · rintro ⟨k, hk, rfl⟩
    exact ⟨k, by omega, rfl⟩

theorem simpleCheck_iff {w : List Nat} (h : w.length = 14) :
    simpleCheck w = true ↔ w.Nodup := by
  simp only [simpleCheck, beq_iff_eq]
  constructor
  · intro hd
    have hsub := List.dedup_sublist w
    have heq := hsub.eq_of_length (by rw [hd, h])
    rw [← heq]
    exact List.nodup_dedup w
  · intro hn
    rw [List.dedup_eq_self.mpr hn, h]

theorem fasterGo_iff : ∀ (l seen : List Nat),
    fasterGo l seen = true ↔ l.Nodup ∧ ∀ x ∈ l, x ∉ seen := by
  intro l
  induction l with
  | nil => intro seen; simp [fasterGo]
  | cons x l ih =>
    intro seen
    by_cases hx : x ∈ seen
    · simp [fasterGo, hx, List.forall_mem_cons]
    · rw [show fasterGo (x :: l) seen = fasterGo l (x :: seen) from by
        simp [fasterGo, hx]]
      rw [ih (x :: seen)]
      constructor
      · rintro ⟨hnd, hall⟩
        refine ⟨List.nodup_cons.mpr ⟨fun hxl => ?_, hnd⟩, ?_⟩
        · exact (hall x hxl) (List.mem_cons_self x seen)
        · intro y hy
          rcases List.mem_cons.mp hy with rfl | hyl
          · exact hx
          · exact fun hys => (hall y hyl) (List.mem_cons_of_mem x hys)
      · rintro ⟨hnd, hall⟩
        obtain ⟨hxl, hnd'⟩ := List.nodup_cons.mp hnd
        refine ⟨hnd', fun y hy hymem => ?_⟩
        rcases List.mem_cons.mp hymem with rfl | hys
        · exact hxl hy
        · exact (hall y (List.mem_cons_of_mem x hy)) hys

theorem vecGo_iff : ∀ (l seen : List Nat),
    vecGo l seen = true ↔ l.Nodup ∧ ∀ x ∈ l, x ∉ seen := by
  intro l
  induction l with
  | nil => intro seen; simp [vecGo]
  | cons x l ih =>
    intro seen
    by_cases hx : x ∈ seen
    · simp [vecGo, hx, List.forall_mem_cons]
    · rw [show vecGo (x :: l) seen = vecGo l (seen ++ [x]) from by
        simp [vecGo, hx]]
      rw [ih (seen ++ [x])]
      constructor
      · rintro ⟨hnd, hall⟩
        refine ⟨List.nodup_cons.mpr ⟨fun hxl => ?_, hnd⟩, ?_⟩
        · exact (hall x hxl) (List.mem_append.mpr (Or.inr (List.mem_singleton.mpr rfl)))
        · intro y hy
          rcases List.mem_cons.mp hy with rfl | hyl
          · exact hx
          · exact fun hys => (hall y hyl) (List.mem_append.mpr (Or.inl hys))
      · rintro ⟨hnd, hall⟩
        obtain ⟨hxl, hnd'⟩ := List.nodup_cons.mp hnd
        refine ⟨hnd', fun y hy hymem => ?_⟩
        rcases List.mem_append.mp hymem with hys | hyx
        · exact (hall y (List.mem_cons_of_mem x hy)) hys
        · exact hxl (List.mem_singleton.mp hyx ▸ hy)

theorem take_set_eq : ∀ (arr : List Nat) (index x : Nat), index < arr.length →
    (arr.set index x).take (index + 1) = arr.take index ++ [x] := by
  intro arr
  induction arr with
  | nil => intro index x h; simp at h
  | cons a t ih =>
    intro index x h
    match index with
    | 0 => simp
    | i + 1 =>
      simp only [List.set_cons_succ, List.take_succ_cons, List.cons_append]
      rw [ih i x (by simpa using h)]

theorem arrGo_iff : ∀ (l arr : List Nat) (index : Nat), index + l.length ≤ arr.length →
    (arrGo l arr index = true ↔ l.Nodup ∧ ∀ x ∈ l, x ∉ arr.take index) := by
  intro l
  induction l with
  | nil => intro arr index h; simp [arrGo]
  | cons x l ih =>
    intro arr index h
    simp only [List.length_cons] at h
    by_cases hx : x ∈ arr.take index
    · simp [arrGo, hx, List.forall_mem_cons]
    · rw [show arrGo (x :: l) arr index = arrGo l (arr.set index x) (index + 1) from by
        simp [arrGo, hx]]
      rw [ih (arr.set index x) (index + 1) (by rw [List.length_set]; omega)]
      rw [take_set_eq arr index x (by omega)]
      constructor
      · rintro ⟨hnd, hall⟩
        refine ⟨List.nodup_cons.mpr ⟨fun hxl => ?_, hnd⟩, ?_⟩
        · exact (hall x hxl) (List.mem_append.mpr (Or.inr (List.mem_singleton.mpr rfl)))
        · intro y hy
          rcases List.mem_cons.mp hy with rfl | hyl
          · exact hx
          · exact fun hys => (hall y hyl) (List.mem_append.mpr (Or.inl hys))
      · rintro ⟨hnd, hall⟩
        obtain ⟨hxl, hnd'⟩ := List.nodup_cons.mp hnd
        refine ⟨hnd', fun y hy hymem => ?_⟩
        rcases List.mem_append.mp hymem with hys | hyx
        · exact (hall y (List.mem_cons_of_mem x hy)) hys
        · exact hxl (List.mem_singleton.mp hyx ▸ hy)

theorem simple_solution_canonical (i : List Nat) :
    simple_solution i = (findFirstIdx nodupCheck (windowsList i)).map (· + 14) := by
  unfold simple_solution
  congr 1
  apply findFirstIdx_congr
  intro w hw
  obtain ⟨k, hk, rfl⟩ := mem_windowsList.mp hw
  rw [Bool.eq_iff_iff, simpleCheck_iff (win_length hk)]
  simp [nodupCheck]

theorem faster_eq_simple (i : List Nat) : faster_solution i = simple_solution i := by
  rw [simple_solution_canonical]
  unfold faster_solution
  congr 1
  apply findFirstIdx_congr
  intro w _
  rw [Bool.eq_iff_iff, fasterGo_iff w []]
  simp [nodupCheck]

theorem vec_eq_simple (i : List Nat) :
    faster_with_vec_solution i = simple_solution i := by
  rw [simple_solution_canonical]
  unfold faster_with_vec_solution
  congr 1
  apply findFirstIdx_congr
  intro w _
  rw [Bool.eq_iff_iff, vecGo_iff w []]
  simp [nodupCheck]

theorem arr_eq_simple (i : List Nat) :
    faster_with_array_solution i = simple_solution i := by
  rw [simple_solution_canonical]
  unfold faster_with_array_solution
  congr 1
  apply findFirstIdx_congr
  intro w hw
  obtain ⟨k, hk, rfl⟩ := mem_windowsList.mp hw
  rw [Bool.eq_iff_iff, arrGo_iff (win i k) (List.replicate 14 0) 0
    (by rw [List.length_replicate, win_length hk])]
  simp [nodupCheck]

theorem foldl_maskToggle (l : List Nat) : ∀ f, l.foldl maskToggle f = f ^^^ parityMask l := by
  induction l with
  | nil => intro f; simp [parityMask]
  | cons c t ih =>
    intro f
    show List.foldl maskToggle (maskToggle f c) t = _
    rw [ih (maskToggle f c)]
    have hpm : parityMask (c :: t) = maskToggle 0 c ^^^ parityMask t := by
      show List.foldl maskToggle (maskToggle 0 c) t = _
      rw [ih (maskToggle 0 c)]
    rw [hpm]
    simp only [maskToggle, Nat.zero_xor]
    rw [Nat.xor_assoc]

theorem parityMask_cons (c : Nat) (t : List Nat) :
    parityMask (c :: t) = (1 <<< (c % 32)) ^^^ parityMask t := by
  show List.foldl maskToggle (maskToggle 0 c) t = _
  rw [foldl_maskToggle t (maskToggle 0 c)]
  simp [maskToggle]

theorem parityMask_append (a b : List Nat) :
    parityMask (a ++ b) = parityMask a ^^^ parityMask b := by
  show List.foldl maskToggle 0 (a ++ b) = _
  rw [List.foldl_append, foldl_maskToggle b (List.foldl maskToggle 0 a)]
  rfl

theorem testBit_one_shiftLeft (k b : Nat) : (1 <<< k).testBit b = decide (k = b) := by
  rw [Nat.shiftLeft_eq, one_mul, Nat.testBit_two_pow]

theorem parityMask_testBit (l : List Nat) (b : Nat) :
    (parityMask l).testBit b =
      decide (l.countP (fun c => c % 32 == b) % 2 = 1) := by
  induction l with
  | nil => simp [parityMask]
  | cons c t ih =>
    rw [parityMask_cons, Nat.testBit_xor, testBit_one_shiftLeft, ih, List.countP_cons]
    by_cases h : c % 32 = b
    · rw [if_pos (by simpa using h)]
      set cnt := t.countP (fun c => c % 32 == b) with hcnt
      by_cases hc : cnt % 2 = 1
      · have h2 : (cnt + 1) % 2 ≠ 1 := by omega
        simp [h, hc, h2]
      · have h2 : (cnt + 1) % 2 = 1 := by omega
        simp [h, hc, h2]
    · rw [if_neg (by simpa using h)]
      simp [h]

theorem countP_odd_le_sum (L : List Nat) (f : Nat → Nat) :
    L.countP (fun b => f b % 2 == 1) ≤ (L.map f).sum := by
  induction L with
  | nil => simp
  | cons b L ih =>
    rw [List.countP_cons, List.map_cons, List.sum_cons]
    by_cases h : f b % 2 = 1
    · have h1 : 1 ≤ f b := by omega
      rw [if_pos (by simpa using h)]
      omega
    · rw [if_neg (by simpa using h)]
      omega

theorem countP_odd_eq_sum_of_le_one (L : List Nat) (f : Nat → Nat)
    (h : ∀ b ∈ L, f b ≤ 1) :
    L.countP (fun b => f b % 2 == 1) = (L.map f).sum := by
  induction L with
  | nil => simp
  | cons b L ih =>
    rw [List.countP_cons, List.map_cons, List.sum_cons]
    have hb := h b (List.mem_cons_self b L)
    have ihL := ih (fun y hy => h y (List.mem_cons_of_mem b hy))
    interval_cases hfb : f b
    · rw [if_neg (by simp)]
      omega
    · rw [if_pos (by simp)]
      omega

theorem le_one_of_countP_odd_eq_sum (L : List Nat) (f : Nat → Nat)
    (heq : L.countP (fun b => f b % 2 == 1) = (L.map f).sum) :
    ∀ b ∈ L, f b ≤ 1 := by
  induction L with
  | nil => simp
  | cons b L ih =>
    rw [List.countP_cons, List.map_cons, List.sum_cons] at heq
    have hle := countP_odd_le_sum L f
    by_cases h : f b % 2 = 1
    · rw [if_pos (by simpa using h)] at heq
      intro y hy
      rcases List.mem_cons.mp hy with rfl | hyL
      · omega
      · exact ih (by omega) y hyL
    · rw [if_neg (by simpa using h)] at heq
      intro y hy
      rcases List.mem_cons.mp hy with rfl | hyL
      · omega
      · exact ih (by omega) y hyL

theorem sum_map_add (L : List Nat) (g h : Nat → Nat) :
    (L.map (fun b => g b + h b)).sum = (L.map g).sum + (L.map h).sum := by
  induction L with
  | nil => simp
  | cons b L ih =>
    simp only [List.map_cons, List.sum_cons, ih]
    omega

theorem sum_map_indicator : ∀ (L : List Nat) (a : Nat), L.Nodup → a ∈ L →
    (L.map (fun b => if a = b then 1 else 0)).sum = 1 := by
  intro L
  induction L with
  | nil => intro a _ ha; simp at ha
  | cons b L ih =>
    intro a hnd ha
    obtain ⟨hbL, hndL⟩ := List.nodup_cons.mp hnd
    simp only [List.map_cons, List.sum_cons]
    rcases List.mem_cons.mp ha with rfl | haL
    · rw [if_pos rfl]
      have hz : (L.map (fun b => if a = b then 1 else 0)).sum = 0 := by
        apply List.sum_eq_zero
        intro x hx
        obtain ⟨y, hy, rfl⟩ := List.mem_map.mp hx
        rw [if_neg (by rintro rfl; exact hbL hy)]
      omega
    · have hne : a ≠ b := fun hh => hbL (hh ▸ haL)
      rw [if_neg hne, ih a hndL haL]

theorem sum_countP_bits (w : List Nat) :
    ((List.range 32).map (fun b => w.countP (fun c => c % 32 == b))).sum = w.length := by
  induction w with
  | nil =>
    apply List.sum_eq_zero
    intro x hx
    obtain ⟨y, _, rfl⟩ := List.mem_map.mp hx
    simp
  | cons c w ih =>
    have hfun : ((List.range 32).map (fun b => (c :: w).countP (fun c' => c' % 32 == b))) =
        ((List.range 32).map (fun b => w.countP (fun c' => c' % 32 == b) +
          (if c % 32 = b then 1 else 0))) := by
      apply List.map_congr_left
      intro b _
      rw [List.countP_cons]
      by_cases h : c % 32 = b
      · simp [h]
      · rw [if_neg (by simpa using h), if_neg h]
    rw [hfun, sum_map_add, ih,
      sum_map_indicator (List.range 32) (c % 32) (List.nodup_range 32)
        (List.mem_range.mpr (by omega))]
    simp

theorem popcount_parityMask_eq (w : List Nat) :
    popcount32 (parityMask w) =
      (List.range 32).countP (fun b => w.countP (fun c => c % 32 == b) % 2 == 1) := by
  unfold popcount32
  apply List.countP_congr
  intro b _
  rw [parityMask_testBit]
  simp

/-- Soundness of the popcount test for arbitrary byte values: 14 toggles can
only leave 14 set bits if every toggle hit a fresh bit, so the window has no
repeated value. -/
theorem benny_sound {w : List Nat} (hlen : w.length = 14)
    (hpc : popcount32 (parityMask w) = 14) : w.Nodup := by
  rw [popcount_parityMask_eq] at hpc
  have hsum := sum_countP_bits w
  rw [hlen] at hsum
  have hall : ∀ b ∈ List.range 32, w.countP (fun c => c % 32 == b) ≤ 1 :=
    le_one_of_countP_odd_eq_sum _ _ (by rw [hpc, hsum])
  rw [List.nodup_iff_count_le_one]
  intro a
  by_cases ha : a ∈ w
  · have h32 : a % 32 ∈ List.range 32 := List.mem_range.mpr (by omega)
    have h1 := hall _ h32
    have h2 : List.count a w ≤ w.countP (fun c => c % 32 == a % 32) := by
      rw [List.count_eq_countP]
      apply List.countP_mono_left
      intro x _ hx
      have : x = a := by simpa using hx
      simp [this]
    omega
  · simp [List.count_eq_zero_of_not_mem ha]

theorem countP_bits_le_one_of_inj (w : List Nat) (hnd : w.Nodup)
    (hinj : ∀ a ∈ w, ∀ c ∈ w, a % 32 = c % 32 → a = c) :
    ∀ b, w.countP (fun c => c % 32 == b) ≤ 1 := by
  have hm : (bitsOf w).Nodup := List.Nodup.map_on hinj hnd
  intro b
  have heq : w.countP (fun c => c % 32 == b) = List.count b (bitsOf w) := by
    rw [List.count_eq_countP]
    unfold bitsOf
    rw [List.countP_map]
    rfl
  rw [heq]
  exact List.nodup_iff_count_le_one.mp hm b

/-- Completeness of the popcount test when reduction mod 32 is injective on
the window's values. -/
theorem benny_complete {w : List Nat} (hlen : w.length = 14) (hnd : w.Nodup)
    (hinj : ∀ a ∈ w, ∀ c ∈ w, a % 32 = c % 32 → a = c) :
    popcount32 (parityMask w) = 14 := by
  rw [popcount_parityMask_eq]
  have hle1 := countP_bits_le_one_of_inj w hnd hinj
  rw [countP_odd_eq_sum_of_le_one _ _ (fun b _ => hle1 b), sum_countP_bits, hlen]

theorem windowsList_cons {c : Nat} {t : List Nat} (h : 14 ≤ (c :: t).length) :
    windowsList (c :: t) = win (c :: t) 0 :: windowsList t := by
  have h13 : 13 ≤ t.length := by simp at h; omega
  unfold windowsList
  have hlen : (c :: t).length + 1 - 14 = (t.length + 1 - 14) + 1 := by
    simp only [List.length_cons]; omega
  rw [hlen, List.range_succ_eq_map, List.map_cons, List.map_map]
  congr 1

theorem take14_split {l : List Nat} (h : 14 ≤ l.length) :
    l.take 14 = l.take 13 ++ [l.getD 13 0] := by
  have h13 : 13 < l.length := by omega
  rw [show (14 : Nat) = 13 + 1 from rfl, List.take_succ]
  congr 1
  rw [List.getElem?_eq_getElem h13]
  simp [List.getD_eq_getElem?_getD, List.getElem?_eq_getElem h13]

theorem parityMask_take14 {l : List Nat} (h : 14 ≤ l.length) :
    parityMask (l.take 13) ^^^ (1 <<< (l.getD 13 0 % 32)) = parityMask (l.take 14) := by
  rw [take14_split h, parityMask_append, parityMask_cons]
  show _ = parityMask (l.take 13) ^^^ ((1 <<< (l.getD 13 0 % 32)) ^^^ parityMask [])
  simp [parityMask]

theorem bennyGo_spec : ∀ l : List Nat,
    bennyGo (parityMask (l.take 13)) l =
      findFirstIdx (fun w => popcount32 (parityMask w) == 14) (windowsList l) := by
  intro l
  induction l with
  | nil => simp [bennyGo, windowsList, findFirstIdx]
  | cons c t ih =>
    by_cases h : 14 ≤ (c :: t).length
    · rw [windowsList_cons h]
      have hwin0 : win (c :: t) 0 = (c :: t).take 14 := by simp [win]
      rw [show bennyGo (parityMask ((c :: t).take 13)) (c :: t) =
          (if popcount32 (parityMask ((c :: t).take 13) ^^^
              (1 <<< ((c :: t).getD 13 0 % 32))) = 14 then some 0
           else (bennyGo ((parityMask ((c :: t).take 13) ^^^
              (1 <<< ((c :: t).getD 13 0 % 32))) ^^^ (1 <<< (c % 32))) t).map (· + 1))
        from by rw [bennyGo, if_pos h]]
      rw [parityMask_take14 h]
      by_cases hacc : popcount32 (parityMask ((c :: t).take 14)) = 14
      · rw [if_pos hacc]
        rw [show findFirstIdx (fun w => popcount32 (parityMask w) == 14)
            (win (c :: t) 0 :: windowsList t) = some 0 from by
          rw [findFirstIdx, if_pos (by rw [hwin0]; simpa using hacc)]]
      · rw [if_neg hacc]
        have hf2 : parityMask ((c :: t).take 14) ^^^ (1 <<< (c % 32)) =
            parityMask (t.take 13) := by
          rw [List.take_succ_cons, parityMask_cons, Nat.xor_comm (1 <<< (c % 32)),
            Nat.xor_assoc, Nat.xor_self, Nat.xor_zero]
        rw [hf2, ih]
        rw [show findFirstIdx (fun w => popcount32 (parityMask w) == 14)
            (win (c :: t) 0 :: windowsList t) =
            (findFirstIdx (fun w => popcount32 (parityMask w) == 14)
              (windowsList t)).map (· + 1) from by
          rw [findFirstIdx, if_neg (by rw [hwin0]; simpa using hacc)]]
    · have hnil : windowsList (c :: t) = [] := by
        unfold windowsList
        have : (c :: t).length + 1 - 14 = 0 := by
          simp only [List.length_cons] at h ⊢; omega
        rw [this]
        rfl
      rw [hnil]
      rw [show bennyGo (parityMask ((c :: t).take 13)) (c :: t) = none from by
        rw [bennyGo, if_neg h]]
      rfl

theorem benny_canonical (i : List Nat) :
    benny_solution i =
      (findFirstIdx (fun w => popcount32 (parityMask w) == 14) (windowsList i)).map (· + 14) := by
  unfold benny_solution
  rw [bennyGo_spec]

theorem and_shift_ne_zero (s k : Nat) :
    s &&& (1 <<< k) ≠ 0 ↔ s.testBit k = true := by
  rw [Nat.shiftLeft_eq, one_mul, Nat.and_two_pow]
  cases htb : s.testBit k
  · simp
  · simp [(Nat.two_pow_pos k).ne']

theorem foldl_orStep (l : List Nat) :
    ∀ s, l.foldl (fun s c => s ||| (1 <<< (c % 32))) s = s ||| orMask l := by
  induction l with
  | nil => intro s; simp [orMask]
  | cons c t ih =>
    intro s
    show List.foldl _ (s ||| (1 <<< (c % 32))) t = _
    rw [ih (s ||| (1 <<< (c % 32)))]
    have hom : orMask (c :: t) = (1 <<< (c % 32)) ||| orMask t := by
      show List.foldl _ (0 ||| (1 <<< (c % 32))) t = _
      rw [ih (0 ||| (1 <<< (c % 32)))]
      simp [Nat.zero_or]
    rw [hom, Nat.or_assoc]

theorem orMask_cons (c : Nat) (t : List Nat) :
    orMask (c :: t) = (1 <<< (c % 32)) ||| orMask t := by
  show List.foldl _ (0 ||| (1 <<< (c % 32))) t = _
  rw [foldl_orStep t (0 ||| (1 <<< (c % 32)))]
  simp [Nat.zero_or]

theorem orMask_testBit (l : List Nat) (b : Nat) :
    (orMask l).testBit b = true ↔ ∃ c ∈ l, c % 32 = b := by
  induction l with
  | nil => simp [orMask]
  | cons c t ih =>
    rw [orMask_cons, Nat.testBit_or, testBit_one_shiftLeft]
    simp only [Bool.or_eq_true, decide_eq_true_eq, ih, List.mem_cons]
    constructor
    · rintro (h | ⟨y, hy, hyb⟩)
      · exact ⟨c, Or.inl rfl, h⟩
      · exact ⟨y, Or.inr hy, hyb⟩
    · rintro ⟨y, rfl | hy, hyb⟩
      · exact Or.inl hyb
      · exact Or.inr ⟨y, hy, hyb⟩

theorem rpos_none_iff : ∀ (l : List Nat) (s : Nat),
    rposDupAux l s = none ↔
      (bitsOf l).Nodup ∧ ∀ c ∈ l, s.testBit (c % 32) = false := by
  intro l
  induction l with
  | nil => intro s; simp [rposDupAux, bitsOf]
  | cons b rest ih =>
    intro s
    by_cases h : s &&& (1 <<< (b % 32)) ≠ 0
    · rw [show rposDupAux (b :: rest) s = some rest.length from by
        rw [rposDupAux, if_pos h]]
      have htb := (and_shift_ne_zero s (b % 32)).mp h
      simp only [reduceCtorEq, false_iff, not_and]
      intro _ hall
      have := hall b (List.mem_cons_self b rest)
      rw [htb] at this
      simp at this
    · rw [show rposDupAux (b :: rest) s = rposDupAux rest (s ||| (1 <<< (b % 32))) from by
        rw [rposDupAux, if_neg h]]
      rw [ih (s ||| (1 <<< (b % 32)))]
      have hsb : s.testBit (b % 32) = false := by
        rw [← Bool.not_eq_true]
        exact fun htb => h ((and_shift_ne_zero s (b % 32)).mpr htb)
      constructor
      · rintro ⟨hnd, hall⟩
        have hb : ∀ c ∈ rest, (c % 32) ≠ (b % 32) ∧ s.testBit (c % 32) = false := by
          intro c hc
          have := hall c hc
          rw [Nat.testBit_or, testBit_one_shiftLeft] at this
          constructor
          · intro hh
            rw [Bool.or_eq_false_iff] at this
            have h2 := this.2
            simp [hh] at h2
          · rw [Bool.or_eq_false_iff] at this
            exact this.1
        refine ⟨?_, ?_⟩
        · show ((b % 32) :: bitsOf rest).Nodup
          rw [List.nodup_cons]
          refine ⟨fun hmem => ?_, hnd⟩
          obtain ⟨c, hc, hcb⟩ := List.mem_map.mp hmem
          exact (hb c hc).1 hcb
        · intro c hc
          rcases List.mem_cons.mp hc with rfl | hcr
          · exact hsb
          · exact (hb c hcr).2
      · rintro ⟨hnd, hall⟩
        have hnd' : (bitsOf rest).Nodup := by
          have : bitsOf (b :: rest) = (b % 32) :: bitsOf rest := rfl
          rw [this, List.nodup_cons] at hnd
          exact hnd.2
        have hbnot : (b % 32) ∉ bitsOf rest := by
          have : bitsOf (b :: rest) = (b % 32) :: bitsOf rest := rfl
          rw [this, List.nodup_cons] at hnd
          exact hnd.1
        refine ⟨hnd', fun c hc => ?_⟩
        rw [Nat.testBit_or, testBit_one_shiftLeft]
        have h1 := hall c (List.mem_cons_of_mem b hc)
        rw [h1]
        have h2 : (b % 32) ≠ (c % 32) := by
          intro hh
          exact hbnot (hh ▸ List.mem_map.mpr ⟨c, hc, rfl⟩)
        simp [h2]

theorem rpos_some_split : ∀ (l : List Nat) (s p : Nat), rposDupAux l s = some p →
    ∃ l₁ b l₂, l = l₁ ++ b :: l₂ ∧ p = l₂.length ∧
      (s ||| orMask l₁).testBit (b % 32) = true := by
  intro l
  induction l with
  | nil => intro s p h; simp [rposDupAux] at h
  | cons b rest ih =>
    intro s p h
    by_cases hc : s &&& (1 <<< (b % 32)) ≠ 0
    · rw [show rposDupAux (b :: rest) s = some rest.length from by
        rw [rposDupAux, if_pos hc]] at h
      obtain rfl : rest.length = p := by injection h
      refine ⟨[], b, rest, rfl, rfl, ?_⟩
      have : orMask ([] : List Nat) = 0 := rfl
      rw [this, Nat.or_zero]
      exact (and_shift_ne_zero s (b % 32)).mp hc
    · rw [show rposDupAux (b :: rest) s = rposDupAux rest (s ||| (1 <<< (b % 32))) from by
        rw [rposDupAux, if_neg hc]] at h
      obtain ⟨l₁, b', l₂, heq, hp, htb⟩ := ih _ p h
      refine ⟨b :: l₁, b', l₂, by rw [heq]; rfl, hp, ?_⟩
      rw [orMask_cons, ← Nat.or_assoc]
      exact htb

/-- The bytes scanned before a reverse-scan hit have pairwise-distinct bits,
and the hit byte's bit occurs among them: so the suffix of the window from
the hit position onward has duplicate bits. -/
theorem rpos_skip {w : List Nat} {p : Nat}
    (h : rposDupAux w.reverse 0 = some p) :
    ∀ q, q ≤ p → ¬ (bitsOf (w.drop q)).Nodup := by
  obtain ⟨l₁, b, l₂, heq, hp, htb⟩ := rpos_some_split w.reverse 0 p h
  have hw : w = l₂.reverse ++ b :: l₁.reverse := by
    have h2 := congrArg List.reverse heq
    rw [List.reverse_reverse] at h2
    rw [h2]
    simp
  have hbit : (b % 32) ∈ bitsOf l₁.reverse := by
    rw [Nat.zero_or] at htb
    obtain ⟨c, hc, hcb⟩ := (orMask_testBit l₁ (b % 32)).mp htb
    exact List.mem_map.mpr ⟨c, List.mem_reverse.mpr hc, hcb⟩
  have hdropp : w.drop p = b :: l₁.reverse := by
    rw [hw, hp, show l₂.length = l₂.reverse.length from (List.length_reverse l₂).symm,
      List.drop_left]
  intro q hq hnd
  have hsub : (w.drop p).Sublist (w.drop q) := by
    rw [show w.drop p = (w.drop q).drop (p - q) from by
      rw [List.drop_drop]; congr 1; omega]
    exact List.drop_sublist _ _
  have hnd' : (bitsOf (w.drop p)).Nodup := (hsub.map (· % 32)).nodup hnd
  rw [hdropp] at hnd'
  have : bitsOf (b :: l₁.reverse) = (b % 32) :: bitsOf l₁.reverse := rfl
  rw [this, List.nodup_cons] at hnd'
  exact hnd'.1 hbit

theorem win_drop_eq_take {i : List Nat} {idx s : Nat} (hs : idx ≤ s) :
    (win i idx).drop (s - idx) = (win i s).take (14 - (s - idx)) := by
  unfold win
  rw [List.drop_take, List.drop_drop]
  rw [show idx + (s - idx) = s from by omega]
  rw [List.take_take]
  congr 1
  omega

theorem bits_nodup_reverse_iff (w : List Nat) :
    (bitsOf w.reverse).Nodup ↔ (bitsOf w).Nodup := by
  unfold bitsOf
  rw [List.map_reverse, List.nodup_reverse]

theorem davidGo_first_bits (i : List Nat) : ∀ (fuel idx : Nat),
    i.length - 13 - idx < fuel →
    (∀ s, s < idx → s + 14 ≤ i.length → ¬ (bitsOf (win i s)).Nodup) →
    davidGo i fuel idx =
      ((findFirstIdx bitsCheck (windowsList i)).map (· + 14)).getD 0 := by
  intro fuel
  induction fuel with
  | zero => intro idx hfuel _; omega
  | succ fuel ihf =>
    intro idx hfuel hinv
    rw [davidGo]
    by_cases hg : idx + 14 ≤ i.length
    · rw [if_pos hg]
      cases hr : rposDupAux ((win i idx).reverse) 0 with
      | none =>
        have hnd : (bitsOf (win i idx)).Nodup := by
          rw [← bits_nodup_reverse_iff]
          exact ((rpos_none_iff _ 0).mp hr).1
        have hfind : findFirstIdx bitsCheck (windowsList i) = some idx := by
          apply findFirstIdx_eq_some_of bitsCheck [] (windowsList i) idx
          · rw [windowsList_length]; omega
          · rw [windowsList_getD (by omega)]
            simp [bitsCheck, hnd]
          · intro m hm
            rw [windowsList_getD (by omega)]
            simp only [bitsCheck, decide_eq_false_iff_not]
            exact hinv m hm (by omega)
        rw [hfind]
        rfl
      | some pos =>
        show davidGo i fuel (idx + pos + 1) =
          ((findFirstIdx bitsCheck (windowsList i)).map (· + 14)).getD 0
        refine ihf (idx + pos + 1) (by omega) ?_
        intro s hs hslen
        by_cases hsi : s < idx
        · exact hinv s hsi hslen
        · have hq : s - idx ≤ pos := by omega
          have hskip := rpos_skip hr (s - idx) hq
          intro hnd
          apply hskip
          rw [win_drop_eq_take (by omega)]
          exact ((List.take_sublist _ _).map (· % 32)).nodup hnd
    · rw [if_neg hg]
      have hfind : findFirstIdx bitsCheck (windowsList i) = none := by
        rw [findFirstIdx_none_iff]
        intro w hw
        obtain ⟨k, hk, rfl⟩ := mem_windowsList.mp hw
        simp only [bitsCheck, decide_eq_false_iff_not]
        exact hinv k (by omega) hk
      rw [hfind]
      rfl

/-- `david_a_perez_solution` returns `k + 14` for the first window index `k`
whose mod-32 bit sequence is duplicate-free, and `0` when there is none. -/
theorem david_eq_bits (i : List Nat) :
    david_a_perez_solution i =
      ((findFirstIdx bitsCheck (windowsList i)).map (· + 14)).getD 0 := by
  unfold david_a_perez_solution
  apply davidGo_first_bits i (i.length + 1) 0 (by omega)
  intro s hs
  omega

theorem inj_restrict {i w : List Nat}
    (hinj : ∀ a ∈ i, ∀ b ∈ i, a % 32 = b % 32 → a = b) (hw : w ⊆ i) :
    ∀ a ∈ w, ∀ b ∈ w, a % 32 = b % 32 → a = b :=
  fun a ha b hb => hinj a (hw ha) b (hw hb)

/-- Lowercase ASCII letters (97..122) are mapped injectively by `% 32`. -/
theorem letters_mod32_inj {i : List Nat} (hab : ∀ c ∈ i, 97 ≤ c ∧ c ≤ 122) :
    ∀ a ∈ i, ∀ b ∈ i, a % 32 = b % 32 → a = b := by
  intro a ha b hb h
  obtain ⟨h1, h2⟩ := hab a ha
  obtain ⟨h3, h4⟩ := hab b hb
  omega

theorem bits_nodup_iff_of_inj {w : List Nat}
    (hinj : ∀ a ∈ w, ∀ b ∈ w, a % 32 = b % 32 → a = b) :
    (bitsOf w).Nodup ↔ w.Nodup :=
  ⟨List.Nodup.of_map _, fun hnd => List.Nodup.map_on hinj hnd⟩

theorem bitsCheck_eq_nodupCheck_of_inj {i : List Nat}
    (hinj : ∀ a ∈ i, ∀ b ∈ i, a % 32 = b % 32 → a = b) :
    ∀ w ∈ windowsList i, bitsCheck w = nodupCheck w := by
  intro w hw
  obtain ⟨k, hk, rfl⟩ := mem_windowsList.mp hw
  rw [Bool.eq_iff_iff]
  simp only [bitsCheck, nodupCheck, decide_eq_true_eq]
  exact bits_nodup_iff_of_inj (inj_restrict hinj (win_subset i k))

theorem bennyAccept_eq_nodupCheck_of_inj {i : List Nat}
    (hinj : ∀ a ∈ i, ∀ b ∈ i, a % 32 = b % 32 → a = b) :
    ∀ w ∈ windowsList i, (popcount32 (parityMask w) == 14) = nodupCheck w := by
  intro w hw
  obtain ⟨k, hk, rfl⟩ := mem_windowsList.mp hw
  rw [Bool.eq_iff_iff]
  simp only [beq_iff_eq, nodupCheck, decide_eq_true_eq]
  constructor
  · exact benny_sound (win_length hk)
  · intro hnd
    exact benny_complete (win_length hk) hnd (inj_restrict hinj (win_subset i k))

theorem benny_eq_simple_of_inj (i : List Nat)
    (hinj : ∀ a ∈ i, ∀ b ∈ i, a % 32 = b % 32 → a = b) :
    benny_solution i = simple_solution i := by
  rw [benny_canonical, simple_solution_canonical]
  rw [findFirstIdx_congr (bennyAccept_eq_nodupCheck_of_inj hinj)]

theorem david_eq_simple_getD_of_inj (i : List Nat)
    (hinj : ∀ a ∈ i, ∀ b ∈ i, a % 32 = b % 32 → a = b) :
    david_a_perez_solution i = (simple_solution i).getD 0 := by
  rw [david_eq_bits, simple_solution_canonical]
  rw [findFirstIdx_congr (bitsCheck_eq_nodupCheck_of_inj hinj)]

/-- When no window has 14 pairwise-distinct values, the five `Option`-valued
strategies all fail (`none`, panic in the Rust code) and the David strategy
returns `0`. -/
theorem noWindow_behavior {i : List Nat}
    (h : ∀ k, k + 14 ≤ i.length → ¬ (win i k).Nodup) :
    simple_solution i = none ∧ faster_solution i = none ∧
    faster_with_vec_solution i = none ∧ faster_with_array_solution i = none ∧
    benny_solution i = none ∧ david_a_perez_solution i = 0 := by
  have hsimple : simple_solution i = none := by
    rw [simple_solution_canonical]
    apply Option.map_eq_none'.mpr
    rw [findFirstIdx_none_iff]
    intro w hw
    obtain ⟨k, hk, rfl⟩ := mem_windowsList.mp hw
    simp only [nodupCheck, decide_eq_false_iff_not]
    exact h k hk
  have hbenny : benny_solution i = none := by
    rw [benny_canonical]
    apply Option.map_eq_none'.mpr
    rw [findFirstIdx_none_iff]
    intro w hw
    obtain ⟨k, hk, rfl⟩ := mem_windowsList.mp hw
    cases hb : (popcount32 (parityMask (win i k)) == 14)
    · rfl
    · exact absurd (benny_sound (win_length hk) (by simpa using hb)) (h k hk)
  have hdavid : david_a_perez_solution i = 0 := by
    rw [david_eq_bits]
    have hnone : findFirstIdx bitsCheck (windowsList i) = none := by
      rw [findFirstIdx_none_iff]
      intro w hw
      obtain ⟨k, hk, rfl⟩ := mem_windowsList.mp hw
      simp only [bitsCheck, decide_eq_false_iff_not]
      intro hbnd
      exact h k hk (List.Nodup.of_map _ hbnd)
    rw [hnone]
    rfl
  exact ⟨hsimple, by rw [faster_eq_simple, hsimple],
    by rw [vec_eq_simple, hsimple], by rw [arr_eq_simple, hsimple], hbenny, hdavid⟩

/-- If `simple_solution` answers `some p`, then the window ending at `p - 1`
is distinct and no earlier window is. -/
theorem simple_some_first {i : List Nat} {p : Nat} (h : simple_solution i = some p) :
    14 ≤ p ∧ p ≤ i.length ∧ (win i (p - 14)).Nodup ∧
      ∀ q, q + 14 ≤ i.length → q < p - 14 → ¬ (win i q).Nodup := by
  rw [simple_solution_canonical] at h
  obtain ⟨k, hk, hp⟩ := Option.map_eq_some'.mp h
  subst hp
  obtain ⟨hlt, htrue, hmin⟩ := findFirstIdx_eq_some nodupCheck [] (windowsList i) k hk
  rw [windowsList_length] at hlt
  rw [windowsList_getD (by omega)] at htrue
  have hk14 : k + 14 ≤ i.length := by omega
  refine ⟨by omega, by omega, ?_, ?_⟩
  · rw [show k + 14 - 14 = k from by omega]
    simpa [nodupCheck] using htrue
  · intro q hq hqk
    rw [show k + 14 - 14 = k from by omega] at hqk
    have hfalse := hmin q (by omega)
    rw [windowsList_getD (by omega)] at hfalse
    simpa [nodupCheck] using hfalse

/-- Converse: the first distinct window determines `simple_solution`. -/
theorem simple_eq_some_of_first {i : List Nat} {k : Nat} (hk14 : k + 14 ≤ i.length)
    (hnd : (win i k).Nodup) (hmin : ∀ q, q < k → ¬ (win i q).Nodup) :
    simple_solution i = some (k + 14) := by
  rw [simple_solution_canonical]
  rw [findFirstIdx_eq_some_of nodupCheck [] (windowsList i) k
    (by rw [windowsList_length]; omega)
    (by rw [windowsList_getD (by omega)]; simpa [nodupCheck] using hnd)
    (fun m hm => by
      rw [windowsList_getD (by omega)]
      simpa [nodupCheck] using hmin m hm)]
  rfl

/-- C1 (amended): on inputs of length at least 14 drawn from lowercase ASCII
letters, all six strategies agree wherever a fully distinct window exists; on
such inputs without one, the five Option-valued strategies fail (`none`) while
`david_a_perez_solution` returns the in-band value `0` (so the six do NOT all
fail identically, see the counterexample). -/
theorem C1_cross_strategy_equivalence (i : List Nat) (hlen : 14 ≤ i.length)
    (hab : ∀ c ∈ i, 97 ≤ c ∧ c ≤ 122) :
    faster_solution i = simple_solution i ∧
    faster_with_vec_solution i = simple_solution i ∧
    faster_with_array_solution i = simple_solution i ∧
    benny_solution i = simple_solution i ∧
    david_a_perez_solution i = (simple_solution i).getD 0 := by
  have hinj := letters_mod32_inj hab
  exact ⟨faster_eq_simple i, vec_eq_simple i, arr_eq_simple i,
    benny_eq_simple_of_inj i hinj, david_eq_simple_getD_of_inj i hinj⟩

/-- C1 counterexample: on the all-`a` lowercase input of length 14 no distinct
window exists; the five Option-valued strategies fail (`none`, a panic in
Rust) but `david_a_perez_solution` does not fail: it returns the ordinary
value `0` of its result type.  So the six do not all fail identically. -/
theorem C1_failure_modes_differ :
    simple_solution (List.replicate 14 97) = none ∧
    faster_solution (List.replicate 14 97) = none ∧
    faster_with_vec_solution (List.replicate 14 97) = none ∧
    faster_with_array_solution (List.replicate 14 97) = none ∧
    benny_solution (List.replicate 14 97) = none ∧
    david_a_perez_solution (List.replicate 14 97) = 0 := by decide

/-- C1 witness: the amended equivalence instantiated on the first sample. -/
theorem C1_cross_strategy_equivalence_witness :
    faster_solution sampleOne = simple_solution sampleOne ∧
    faster_with_vec_solution sampleOne = simple_solution sampleOne ∧
    faster_with_array_solution sampleOne = simple_solution sampleOne ∧
    benny_solution sampleOne = simple_solution sampleOne ∧
    david_a_perez_solution sampleOne = (simple_solution sampleOne).getD 0 :=
  C1_cross_strategy_equivalence sampleOne (by decide) (by decide)

/-- C2: whenever some 14-byte window of the input is pairwise distinct,
`simple_solution` returns the least `pos` with `14 ≤ pos ≤ length` such that
the window at offsets `pos-14 .. pos-1` is pairwise distinct. -/
theorem C2_simple_solution_least_marker (i : List Nat)
    (h : ∃ k, k + 14 ≤ i.length ∧ (win i k).Nodup) :
    ∃ p, simple_solution i = some p ∧
      IsLeast {q | 14 ≤ q ∧ q ≤ i.length ∧ (win i (q - 14)).Nodup} p := by
  have hspec := Nat.find_spec h
  have hmin' : ∀ q, q < Nat.find h → ¬ (win i q).Nodup := by
    intro q hq hnd
    by_cases hql : q + 14 ≤ i.length
    · exact Nat.find_min h hq ⟨hql, hnd⟩
    · have h1 := hspec.1
      omega
  have hsome := simple_eq_some_of_first hspec.1 hspec.2 hmin'
  refine ⟨Nat.find h + 14, hsome, ⟨by omega, hspec.1, ?_⟩, ?_⟩
  · rw [show Nat.find h + 14 - 14 = Nat.find h from by omega]
    exact hspec.2
  · rintro q ⟨hq14, hqlen, hqnd⟩
    by_contra hlt
    push_neg at hlt
    exact Nat.find_min h (show q - 14 < Nat.find h from by omega)
      ⟨by omega, hqnd⟩

/-- C2 witness: the least-marker property instantiated on the first sample,
whose window at offset 5 is distinct. -/
theorem C2_simple_solution_least_marker_witness :
    ∃ p, simple_solution sampleOne = some p ∧
      IsLeast {q | 14 ≤ q ∧ q ≤ sampleOne.length ∧ (win sampleOne (q - 14)).Nodup} p :=
  C2_simple_solution_least_marker sampleOne ⟨5, by decide, by decide⟩

/-- C3: every strategy returns 19, 23 and 29 on the three sample inputs of
the repository's test suite. -/
theorem C3_sample_values :
    (simple_solution sampleOne = some 19 ∧ faster_solution sampleOne = some 19 ∧
     faster_with_vec_solution sampleOne = some 19 ∧
     faster_with_array_solution sampleOne = some 19 ∧
     benny_solution sampleOne = some 19 ∧ david_a_perez_solution sampleOne = 19) ∧
    (simple_solution sampleTwo = some 23 ∧ faster_solution sampleTwo = some 23 ∧
     faster_with_vec_solution sampleTwo = some 23 ∧
     faster_with_array_solution sampleTwo = some 23 ∧
     benny_solution sampleTwo = some 23 ∧ david_a_perez_solution sampleTwo = 23) ∧
    (simple_solution sampleThree = some 29 ∧ faster_solution sampleThree = some 29 ∧
     faster_with_vec_solution sampleThree = some 29 ∧
     faster_with_array_solution sampleThree = some 29 ∧
     benny_solution sampleThree = some 29 ∧ david_a_perez_solution sampleThree = 29) := by
  decide

/-- C4 (amended): on any input with no 14-distinct window (in particular any
input shorter than 14 bytes), the five Option-valued strategies fail
(`none`, i.e. `unwrap` panics in Rust) immediately, while
`david_a_perez_solution` does not fail: it returns the in-band `usize` value
`0`. -/
theorem C4_no_window_behavior (i : List Nat)
    (h : ∀ k, k + 14 ≤ i.length → ¬ (win i k).Nodup) :
    simple_solution i = none ∧ faster_solution i = none ∧
    faster_with_vec_solution i = none ∧ faster_with_array_solution i = none ∧
    benny_solution i = none ∧ david_a_perez_solution i = 0 :=
  noWindow_behavior h

/-- C4 counterexample: on the one-byte input `[97]` (shorter than 14),
`david_a_perez_solution` does not fail loudly; it returns the ordinary value
`0` of its result type `usize`, while e.g. `simple_solution` fails. -/
theorem C4_david_returns_inband_zero :
    ([97] : List Nat).length < 14 ∧
    david_a_perez_solution [97] = 0 ∧
    simple_solution [97] = none := by decide

/-- C4 witness: the amended failure behavior on a length-14 input made of a
single repeated byte. -/
theorem C4_no_window_behavior_witness :
    simple_solution (List.replicate 14 98) = none ∧
    faster_solution (List.replicate 14 98) = none ∧
    faster_with_vec_solution (List.replicate 14 98) = none ∧
    faster_with_array_solution (List.replicate 14 98) = none ∧
    benny_solution (List.replicate 14 98) = none ∧
    david_a_perez_solution (List.replicate 14 98) = 0 :=
  C4_no_window_behavior (List.replicate 14 98) (by
    intro k hk
    have hlen : (List.replicate 14 (98 : Nat)).length = 14 := by decide
    rw [hlen] at hk
    have hk0 : k = 0 := by omega
    subst hk0
    decide)

/-- C5 (amended): for the four set/vector/array strategies on any input, a
returned `pos` marks the first distinct window; the same holds for the two
bitmask strategies whenever `% 32` is injective on the input's bytes (for
`david_a_perez_solution`, a returned nonzero `pos`).  Without injectivity the
bitmask strategies can skip an earlier distinct window (counterexample). -/
theorem C5_first_window_minimality (i : List Nat) (p : Nat) :
    ((simple_solution i = some p ∨ faster_solution i = some p ∨
      faster_with_vec_solution i = some p ∨ faster_with_array_solution i = some p) →
      (win i (p - 14)).Nodup ∧
        ∀ q, q + 14 ≤ i.length → q < p - 14 → ¬ (win i q).Nodup) ∧
    ((∀ a ∈ i, ∀ b ∈ i, a % 32 = b % 32 → a = b) →
      (benny_solution i = some p ∨ (david_a_perez_solution i = p ∧ p ≠ 0)) →
      (win i (p - 14)).Nodup ∧
        ∀ q, q + 14 ≤ i.length → q < p - 14 → ¬ (win i q).Nodup) := by
  constructor
  · intro hcase
    have hs : simple_solution i = some p := by
      rcases hcase with h | h | h | h
      · exact h
      · rw [← faster_eq_simple i]; exact h
      · rw [← vec_eq_simple i]; exact h
      · rw [← arr_eq_simple i]; exact h
    obtain ⟨_, _, hnd, hmin⟩ := simple_some_first hs
    exact ⟨hnd, hmin⟩
  · intro hinj hcase
    have hs : simple_solution i = some p := by
      rcases hcase with h | ⟨hd, hp0⟩
      · rw [← benny_eq_simple_of_inj i hinj]; exact h
      · rw [david_eq_simple_getD_of_inj i hinj] at hd
        cases hsi : simple_solution i with
        | none =>
          rw [hsi] at hd
          simp only [Option.getD_none] at hd
          exact absurd hd.symm hp0
        | some q =>
          rw [hsi] at hd
          simp only [Option.getD_some] at hd
          rw [hd]
    obtain ⟨_, _, hnd, hmin⟩ := simple_some_first hs
    exact ⟨hnd, hmin⟩

/-- C5 counterexample: on `cexFifteen` the very first window (offset 0) is
fully distinct, yet both bitmask strategies return marker position 15, whose
window starts at offset 1: the returned position is not the first distinct
window, refuting the claim for `benny_solution` and `david_a_perez_solution`
on general byte inputs. -/
theorem C5_bitmask_skips_first_distinct_window :
    (win cexFifteen 0).Nodup ∧
    benny_solution cexFifteen = some 15 ∧
    david_a_perez_solution cexFifteen = 15 ∧
    simple_solution cexFifteen = some 14 := by decide

/-- C5 witness: minimality of the marker 19 on the first sample. -/
theorem C5_first_window_minimality_witness :
    (win sampleOne (19 - 14)).Nodup :=
  ((C5_first_window_minimality sampleOne 19).1 (Or.inl (by decide))).1

/-- C6 (amended): an exactly-14-byte distinct input yields `some 14` from the
four set/vector/array strategies, and also from the two bitmask strategies
provided `% 32` is injective on its bytes (without that proviso they can
fail, see the counterexample); an exactly-14-byte input with a repeat makes
the five Option-valued strategies fail and `david_a_perez_solution` return 0. -/
theorem C6_boundary_behavior (i : List Nat) (hlen : i.length = 14) :
    (i.Nodup →
      simple_solution i = some 14 ∧ faster_solution i = some 14 ∧
      faster_with_vec_solution i = some 14 ∧ faster_with_array_solution i = some 14 ∧
      ((∀ a ∈ i, ∀ b ∈ i, a % 32 = b % 32 → a = b) →
        benny_solution i = some 14 ∧ david_a_perez_solution i = 14)) ∧
    (¬ i.Nodup →
      simple_solution i = none ∧ faster_solution i = none ∧
      faster_with_vec_solution i = none ∧ faster_with_array_solution i = none ∧
      benny_solution i = none ∧ david_a_perez_solution i = 0) := by
  have hwin0 : win i 0 = i := by
    unfold win
    rw [List.drop_zero, List.take_of_length_le (by omega)]
  constructor
  · intro hnd
    have hs : simple_solution i = some 14 := by
      have := simple_eq_some_of_first (i := i) (k := 0) (by omega)
        (hwin0.symm ▸ hnd) (fun q hq => absurd hq (by omega))
      exact this
    refine ⟨hs, by rw [faster_eq_simple, hs], by rw [vec_eq_simple, hs],
      by rw [arr_eq_simple, hs], ?_⟩
    intro hinj
    constructor
    · rw [benny_eq_simple_of_inj i hinj, hs]
    · rw [david_eq_simple_getD_of_inj i hinj, hs]
      rfl
  · intro hnnd
    apply noWindow_behavior
    intro k hk
    have hk0 : k = 0 := by omega
    subst hk0
    rw [hwin0]
    exact hnnd

/-- C6 counterexample: `cexFourteen` has exactly 14 pairwise-distinct bytes,
yet `benny_solution` fails (`none`) and `david_a_perez_solution` returns 0
instead of the claimed 14, because bytes 1 and 33 collide mod 32. -/
theorem C6_distinct_fourteen_bitmask_fails :
    cexFourteen.length = 14 ∧ cexFourteen.Nodup ∧
    benny_solution cexFourteen = none ∧
    david_a_perez_solution cexFourteen = 0 ∧
    simple_solution cexFourteen = some 14 := by decide

/-- C6 witness: the amended boundary behavior on the 14 distinct letters
`a`..`n`. -/
theorem C6_boundary_behavior_witness :
    simple_solution lettersFourteen = some 14 ∧
    benny_solution lettersFourteen = some 14 ∧
    david_a_perez_solution lettersFourteen = 14 := by
  obtain ⟨h1, _, _, _, h5⟩ :=
    (C6_boundary_behavior lettersFourteen (by decide)).1 (by decide)
  exact ⟨h1, (h5 (by decide)).1, (h5 (by decide)).2⟩

/-- C7: at the acceptance test for the window starting at offset `k` (after
toggling in the window's last byte, before toggling out its first), bit `b`
of Benny's 32-bit filter is set iff the number of bytes of that window whose
value mod 32 equals `b` is odd; and the filter carried across windows from
the XOR of the first 13 bytes agrees at every window with the mask rebuilt
from scratch, so `benny_solution` equals the per-window popcount scan. -/
theorem C7_benny_filter_invariant (i : List Nat) (k : Nat)
    (hk : k + 14 ≤ i.length) :
    (∀ b, (parityMask (win i k)).testBit b =
      decide ((win i k).countP (fun c => c % 32 == b) % 2 = 1)) ∧
    benny_solution i =
      (findFirstIdx (fun w => popcount32 (parityMask w) == 14)
        (windowsList i)).map (· + 14) :=
  ⟨fun b => parityMask_testBit (win i k) b, benny_canonical i⟩

/-- C7 witness: the filter invariant at window 0 of the first sample, bit 12
(`m % 32`). -/
theorem C7_benny_filter_invariant_witness :
    ((parityMask (win sampleOne 0)).testBit 12 =
      decide ((win sampleOne 0).countP (fun c => c % 32 == 12) % 2 = 1)) ∧
    benny_solution sampleOne =
      (findFirstIdx (fun w => popcount32 (parityMask w) == 14)
        (windowsList sampleOne)).map (· + 14) :=
  ⟨(C7_benny_filter_invariant sampleOne 0 (by decide)).1 12,
   (C7_benny_filter_invariant sampleOne 0 (by decide)).2⟩

/-- C8: on inputs whose bytes are mapped injectively by `% 32`, when the
reverse scan of the window at `idx` reports a duplicate at position `pos`,
none of the skipped offsets `idx+1 .. idx+pos` starts a window of 14
pairwise-distinct bytes, so advancing the cursor by `pos + 1` never skips the
answer. -/
theorem C8_david_advance_safe (i : List Nat)
    (hinj : ∀ a ∈ i, ∀ b ∈ i, a % 32 = b % 32 → a = b)
    (idx pos : Nat) (hw : idx + 14 ≤ i.length)
    (hr : rposDupAux ((win i idx).reverse) 0 = some pos) :
    ∀ s, idx < s → s ≤ idx + pos → s + 14 ≤ i.length → ¬ (win i s).Nodup := by
  intro s hs1 hs2 hs3 hnd
  have hq : s - idx ≤ pos := by omega
  have hskip := rpos_skip hr (s - idx) hq
  apply hskip
  rw [win_drop_eq_take (by omega)]
  have hbits : (bitsOf (win i s)).Nodup :=
    (bits_nodup_iff_of_inj (inj_restrict hinj (win_subset i s))).mpr hnd
  exact ((List.take_sublist _ _).map (· % 32)).nodup hbits

/-- C8 witness: on the first sample the reverse scan of window 0 reports
position 4, and the skipped offset 2 indeed starts a non-distinct window. -/
theorem C8_david_advance_safe_witness : ¬ (win sampleOne 2).Nodup :=
  C8_david_advance_safe sampleOne (by decide) 0 4 (by decide) (by decide)
    2 (by decide) (by decide) (by decide)

/-- C9: for arbitrary byte values, if the popcount test of `benny_solution`
sees 14 set bits on a 14-byte window then that window is pairwise distinct;
consequently any window whose marker `benny_solution` reports is distinct. -/
theorem C9_popcount_sound :
    (∀ w : List Nat, w.length = 14 → popcount32 (parityMask w) = 14 → w.Nodup) ∧
    (∀ (i : List Nat) (p : Nat), benny_solution i = some p →
      (win i (p - 14)).Nodup) := by
  constructor
  · intro w h1 h2
    exact benny_sound h1 h2
  · intro i p h
    rw [benny_canonical] at h
    obtain ⟨k, hk, hp⟩ := Option.map_eq_some'.mp h
    subst hp
    obtain ⟨hlt, htrue, _⟩ := findFirstIdx_eq_some _ [] _ k hk
    rw [windowsList_length] at hlt
    rw [windowsList_getD (by omega)] at htrue
    rw [show k + 14 - 14 = k from by omega]
    exact benny_sound (win_length (by omega)) (by simpa using htrue)

/-- C9 witness: the soundness direction at a concrete distinct window and the
consequence at the first sample's reported marker. -/
theorem C9_popcount_sound_witness :
    lettersFourteen.Nodup ∧ (win sampleOne (19 - 14)).Nodup :=
  ⟨C9_popcount_sound.1 lettersFourteen (by decide) (by decide),
   C9_popcount_sound.2 sampleOne 19 (by decide)⟩

/-- C10: whenever no window of the input has pairwise-distinct mod-32 bits
(the acceptance test of `david_a_perez_solution`; in particular whenever the
input is shorter than 14 bytes), the function terminates and returns `0` — an
ordinary value of its `usize` result type — instead of panicking or
signalling an error. -/
theorem C10_david_zero_when_never_found (i : List Nat)
    (h : ∀ k, k + 14 ≤ i.length → ¬ (bitsOf (win i k)).Nodup) :
    david_a_perez_solution i = 0 := by
  rw [david_eq_bits]
  have hnone : findFirstIdx bitsCheck (windowsList i) = none := by
    rw [findFirstIdx_none_iff]
    intro w hw
    obtain ⟨k, hk, rfl⟩ := mem_windowsList.mp hw
    simp only [bitsCheck, decide_eq_false_iff_not]
    exact h k hk
  rw [hnone]
  rfl

/-- C10 witness: on the one-byte input there is no window at all, and the
result is `0`. -/
theorem C10_david_zero_when_never_found_witness :
    david_a_perez_solution [97] = 0 :=
  C10_david_zero_when_never_found [97] (by
    intro k hk
    exfalso
    simp only [List.length_singleton] at hk
    omega)
